import Mathlib

/-!
Verification of the imposm3 ingestion core: the tag filter engine
(src/mapping/filter.go) and the OSC changeset parser (src/update/parser/parser.go),
shallowly embedded in Lean 4.

Go maps are modelled as association lists (`lookupA` models `m[k]`); mutation of a
map while ranging over it is modelled by rebuilding the retained entries, which is
faithful because `delete` during `range` only affects the deleted key. Channels are
modelled by the produced list of events paired with an optional terminal error.
-/

namespace Imposm

/-- Association-list model of a Go map lookup `m[k]` (keys are unique in a Go map;
the definitions below do not depend on uniqueness). -/
def lookupA {α : Type} (m : List (String × α)) (k : String) : Option α :=
  (m.find? (fun p => p.1 == k)).map (fun p => p.2)

/-- Model of the Go two-valued lookup `_, ok := m[k]`: key presence. -/
def hasKeyA {α : Type} (m : List (String × α)) (k : String) : Bool :=
  (lookupA m k).isSome

/-- Model of a Go map assignment `m[k] = v` on a unique-key association list. -/
def mapSet {α : Type} (m : List (String × α)) (k : String) (v : α) :
    List (String × α) :=
  match m with
  | [] => [(k, v)]
  | (k0, v0) :: rest => if k0 == k then (k, v) :: rest else (k0, v0) :: mapSet rest k v

theorem lookupA_cons {α : Type} (k0 : String) (a : α) (l : List (String × α))
    (k : String) :
    lookupA ((k0, a) :: l) k = if k0 == k then some a else lookupA l k := by
  cases h : k0 == k <;> simp [lookupA, List.find?, h]

theorem hasKeyA_mapSet_self {α : Type} (m : List (String × α)) (k : String) (v : α) :
    hasKeyA (mapSet m k v) k = true := by
  induction m with
  | nil => simp [mapSet, hasKeyA, lookupA_cons]
  | cons kv rest ih =>
    obtain ⟨k0, v0⟩ := kv
    rw [mapSet]
    cases h : k0 == k with
    | true => simp [hasKeyA, lookupA_cons]
    | false => simpa [hasKeyA, lookupA_cons, h] using ih

namespace Mapping

/-- The wildcard sentinel value recognized by the filter (filter.go:46). -/
def anySentinel : String := "__any__"

/-- `TagFilter` (filter.go:32-35): `mappings` models `map[string]map[string][]string`
(the inner `[]string` payloads are the destination-table names, which `Filter` never
reads), `extraTags` models `map[string]bool` (only key presence is ever tested). -/
structure TagFilter where
  mappings : List (String × List (String × List String))
  extraTags : List (String × Bool)

/-- `TagFilter.Filter` (filter.go:41-64): iterate over the tag map entries; an entry
whose key has a rule containing `__any__` or the entry's value marks the feature
relevant and is kept; otherwise an entry is kept only when its key is in
`extraTags`; all other entries are deleted. Returns the remaining tag map paired
with `foundMapping`. -/
def TagFilter.Filter (f : TagFilter) : List (String × String) → List (String × String) × Bool
  | [] => ([], false)
  | (k, v) :: rest =>
    let r := TagFilter.Filter f rest
    match lookupA f.mappings k with
    | some values =>
      if hasKeyA values anySentinel then ((k, v) :: r.1, true)
      else if hasKeyA values v then ((k, v) :: r.1, true)
      else if hasKeyA f.extraTags k then ((k, v) :: r.1, r.2)
      else r
    | none =>
      if hasKeyA f.extraTags k then ((k, v) :: r.1, r.2)
      else r

/-- `RelationTagFilter.Filter` (filter.go:66-77): require `tags["type"]` to be one of
multipolygon/boundary/land_area, else return false without touching the tags;
otherwise run the wrapped `TagFilter.Filter` for its pruning side effect and return
true unconditionally ("always return true here since we found a matching type"). -/
def RelationTagFilter.Filter (f : TagFilter) (tags : List (String × String)) :
    List (String × String) × Bool :=
  match lookupA tags "type" with
  | some t =>
    if t ≠ "multipolygon" ∧ t ≠ "boundary" ∧ t ≠ "land_area" then (tags, false)
    else ((TagFilter.Filter f tags).1, true)
  | none => (tags, false)

/-- Spec wording (§4.2): the key has a rule and the rule's value set contains the
wildcard sentinel or the tag's actual value. -/
def specRuleMatch (f : TagFilter) (k v : String) : Bool :=
  match lookupA f.mappings k with
  | some values => hasKeyA values anySentinel || hasKeyA values v
  | none => false

/-- Spec wording (§4.2): a key is retained iff it matches a rule (wildcard or exact
value) or it is in the always-retained set. -/
def specRetains (f : TagFilter) (k v : String) : Bool :=
  specRuleMatch f k v || hasKeyA f.extraTags k

theorem Filter_cons (f : TagFilter) (k v : String) (rest : List (String × String)) :
    f.Filter ((k, v) :: rest) =
      (if specRetains f k v then (k, v) :: (f.Filter rest).1 else (f.Filter rest).1,
       specRuleMatch f k v || (f.Filter rest).2) := by
  cases h : lookupA f.mappings k with
  | none =>
    cases he : hasKeyA f.extraTags k with
    | false => simp [TagFilter.Filter, h, he, specRetains, specRuleMatch]
    | true => simp [TagFilter.Filter, h, he, specRetains, specRuleMatch]
  | some values =>
    cases ha : hasKeyA values anySentinel with
    | true => simp [TagFilter.Filter, h, ha, specRetains, specRuleMatch]
    | false =>
      cases hv : hasKeyA values v with
      | true => simp [TagFilter.Filter, h, ha, hv, specRetains, specRuleMatch]
      | false =>
        cases he : hasKeyA f.extraTags k with
        | false => simp [TagFilter.Filter, h, ha, hv, he, specRetains, specRuleMatch]
        | true => simp [TagFilter.Filter, h, ha, hv, he, specRetains, specRuleMatch]

theorem filter_fst (f : TagFilter) (tags : List (String × String)) :
    (f.Filter tags).1 = tags.filter (fun kv => specRetains f kv.1 kv.2) := by
  induction tags with
  | nil => rfl
  | cons kv rest ih =>
    obtain ⟨k, v⟩ := kv
    rw [Filter_cons, List.filter_cons]
    cases hp : specRetains f k v <;> simp [hp, ih]

theorem filter_snd (f : TagFilter) (tags : List (String × String)) :
    (f.Filter tags).2 = tags.any (fun kv => specRuleMatch f kv.1 kv.2) := by
  induction tags with
  | nil => rfl
  | cons kv rest ih =>
    obtain ⟨k, v⟩ := kv
    rw [Filter_cons, List.any_cons]
    simp [ih]

/-- `Mapping.RelationTagFilter` (filter.go:21-30), with the merged rule table and
extra-tag set abstracted (the `Mapping` config methods that build them are outside
the excerpted core): the constructor forces `tags["type"] = true` so the type tag
is never filtered out. -/
def mkRelationTagFilter (mappings : List (String × List (String × List String)))
    (extraTags : List (String × Bool)) : TagFilter :=
  ⟨mappings, mapSet extraTags "type" true⟩

theorem any_filter_ruleMatch (f : TagFilter) (tags : List (String × String)) :
    ((tags.filter (fun kv => specRetains f kv.1 kv.2)).any
        (fun kv => specRuleMatch f kv.1 kv.2))
      = tags.any (fun kv => specRuleMatch f kv.1 kv.2) := by
  induction tags with
  | nil => rfl
  | cons kv rest ih =>
    rw [List.filter_cons]
    cases hp : specRetains f kv.1 kv.2 with
    | true => simp [List.any_cons, ih]
    | false =>
      cases hq : specRuleMatch f kv.1 kv.2 with
      | true => exfalso; simp [specRetains, hq] at hp
      | false => simp [List.any_cons, ih, hq]

theorem filter_list_idem (f : TagFilter) (tags : List (String × String)) :
    (f.Filter (f.Filter tags).1).1 = (f.Filter tags).1 := by
  simp only [filter_fst]
  rw [List.filter_filter]
  simp [Bool.and_self]

theorem filter_bool_idem (f : TagFilter) (tags : List (String × String)) :
    (f.Filter (f.Filter tags).1).2 = (f.Filter tags).2 := by
  rw [filter_snd, filter_snd, filter_fst, any_filter_ruleMatch]

theorem tagFilter_idem (f : TagFilter) (tags : List (String × String)) :
    f.Filter (f.Filter tags).1 = f.Filter tags :=
  Prod.ext_iff.mpr ⟨filter_list_idem f tags, filter_bool_idem f tags⟩

theorem lookupA_filter (p : String × String → Bool) (tags : List (String × String))
    (k : String) (h : ∀ v, p (k, v) = true) :
    lookupA (tags.filter p) k = lookupA tags k := by
  induction tags with
  | nil => rfl
  | cons kv rest ih =>
    obtain ⟨k0, v0⟩ := kv
    cases hp : p (k0, v0) with
    | true =>
      simp only [List.filter_cons, hp, if_pos]
      rw [lookupA_cons, lookupA_cons]
      cases hk : k0 == k <;> simp [ih]
    | false =>
      simp only [List.filter_cons, hp]
      rw [lookupA_cons]
      cases hk : k0 == k with
      | true =>
        exfalso
        have hk2 : k0 = k := by simpa using hk
        subst hk2
        simp [h v0] at hp
      | false => simp [ih]

theorem relation_idem (f : TagFilter) (tags : List (String × String))
    (hty : hasKeyA f.extraTags "type" = true) :
    RelationTagFilter.Filter f (RelationTagFilter.Filter f tags).1
      = RelationTagFilter.Filter f tags := by
  cases h : lookupA tags "type" with
  | none => simp [RelationTagFilter.Filter, h]
  | some t =>
    by_cases hts : t ≠ "multipolygon" ∧ t ≠ "boundary" ∧ t ≠ "land_area"
    · simp [RelationTagFilter.Filter, h, hts]
    · have hfix : lookupA (f.Filter tags).1 "type" = some t := by
        rw [filter_fst, lookupA_filter _ _ _ ?_, h]
        intro v
        simp [specRetains, hty]
      have e1 : RelationTagFilter.Filter f tags = ((f.Filter tags).1, true) := by
        simp only [RelationTagFilter.Filter, h]
        rw [if_neg hts]
      rw [e1]
      simp only [RelationTagFilter.Filter, hfix]
      rw [if_neg hts, filter_list_idem]

/-- C1: `TagFilter.Filter` retains exactly the keys that match a rule (wildcard
`__any__` or the tag's actual value) or lie in the always-retained set, deletes all
other keys, and returns true iff some key matched a rule; in particular a rule
entry whose value set contains `__any__` makes any tag set containing that key
relevant, with the key retained. -/
theorem tagFilter_Filter_spec (f : TagFilter) (tags : List (String × String)) :
    (f.Filter tags).1 = tags.filter (fun kv => specRetains f kv.1 kv.2)
    ∧ ((f.Filter tags).2 = true ↔ ∃ kv ∈ tags, specRuleMatch f kv.1 kv.2 = true)
    ∧ (∀ k v values, lookupA f.mappings k = some values →
        hasKeyA values anySentinel = true → (k, v) ∈ tags →
        (f.Filter tags).2 = true ∧ (k, v) ∈ (f.Filter tags).1) := by
  refine ⟨filter_fst f tags, ?_, ?_⟩
  · rw [filter_snd]
    simp [List.any_eq_true]
  · intro k v values hl ha hm
    have hrm : specRuleMatch f k v = true := by simp [specRuleMatch, hl, ha]
    constructor
    · rw [filter_snd, List.any_eq_true]
      exact ⟨(k, v), hm, hrm⟩
    · rw [filter_fst]
      refine List.mem_filter.mpr ⟨hm, ?_⟩
      simp [specRetains, hrm]

def c1File : TagFilter := ⟨[("amenity", [(anySentinel, [])])], []⟩

/-- Witness for C1 at a concrete filter and tag set. -/
theorem tagFilter_Filter_spec_witness :
    (c1File.Filter [("amenity", "whatever")]).2 = true
    ∧ ("amenity", "whatever") ∈ (c1File.Filter [("amenity", "whatever")]).1 :=
  (tagFilter_Filter_spec c1File [("amenity", "whatever")]).2.2 "amenity" "whatever"
    [(anySentinel, [])] (by decide) (by decide) (by decide)

/-- C2: `RelationTagFilter.Filter` returns false and leaves the tag set untouched
when the "type" key is absent or carries a value outside
{multipolygon, boundary, land_area}; otherwise it runs the wrapped filter for its
pruning side effect and returns true unconditionally, whatever the wrapped
filter's own verdict. -/
theorem relationTagFilter_Filter_spec (f : TagFilter) (tags : List (String × String)) :
    (lookupA tags "type" = none → RelationTagFilter.Filter f tags = (tags, false))
    ∧ (∀ t, lookupA tags "type" = some t → t ≠ "multipolygon" → t ≠ "boundary" →
        t ≠ "land_area" → RelationTagFilter.Filter f tags = (tags, false))
    ∧ (∀ t, lookupA tags "type" = some t →
        (t = "multipolygon" ∨ t = "boundary" ∨ t = "land_area") →
        RelationTagFilter.Filter f tags = ((f.Filter tags).1, true)) := by
  refine ⟨?_, ?_, ?_⟩
  · intro h
    simp [RelationTagFilter.Filter, h]
  · intro t h h1 h2 h3
    simp [RelationTagFilter.Filter, h, h1, h2, h3]
  · intro t h hd
    rcases hd with rfl | rfl | rfl <;> simp [RelationTagFilter.Filter, h]

/-- Witness for C2 at a concrete filter and tag set with an unaccepted type. -/
theorem relationTagFilter_Filter_spec_witness :
    RelationTagFilter.Filter c1File [("type", "route")] = ([("type", "route")], false) :=
  (relationTagFilter_Filter_spec c1File [("type", "route")]).2.1 "route" (by decide)
    (by decide) (by decide) (by decide)

def relIdemF : TagFilter := ⟨[], []⟩

/-- C7 counterexample: with an empty rule table and an empty always-retained set,
`RelationTagFilter.Filter` on {type: multipolygon} strips the type key and returns
true, while the second application returns false on the now-typeless tag set, so
the two applications do not agree. -/
theorem relation_idem_cex :
    ¬(RelationTagFilter.Filter relIdemF
        (RelationTagFilter.Filter relIdemF [("type", "multipolygon")]).1
      = RelationTagFilter.Filter relIdemF [("type", "multipolygon")]) := by
  decide

/-- C7 (amended): `TagFilter.Filter` is idempotent for every rule table,
always-retained key set, and tag set; `RelationTagFilter.Filter` is idempotent
whenever the "type" key is in the always-retained set — which the
`Mapping.RelationTagFilter` constructor always ensures (filter.go:28) — but not for
an arbitrary always-retained set. -/
theorem filter_idempotent :
    (∀ (f : TagFilter) (tags : List (String × String)),
        f.Filter (f.Filter tags).1 = f.Filter tags)
    ∧ (∀ (f : TagFilter) (tags : List (String × String)),
        hasKeyA f.extraTags "type" = true →
        RelationTagFilter.Filter f (RelationTagFilter.Filter f tags).1
          = RelationTagFilter.Filter f tags)
    ∧ (∀ (mappings : List (String × List (String × List String)))
        (extraTags : List (String × Bool)) (tags : List (String × String)),
        RelationTagFilter.Filter (mkRelationTagFilter mappings extraTags)
            (RelationTagFilter.Filter (mkRelationTagFilter mappings extraTags) tags).1
          = RelationTagFilter.Filter (mkRelationTagFilter mappings extraTags) tags) :=
  ⟨fun f tags => tagFilter_idem f tags,
   fun f tags h => relation_idem f tags h,
   fun mappings extraTags tags =>
     relation_idem (mkRelationTagFilter mappings extraTags) tags
       (hasKeyA_mapSet_self extraTags "type" true)⟩

def relIdemWF : TagFilter := ⟨[], [("type", true)]⟩

/-- Witness for C7's amended statement at a concrete filter and tag set. -/
theorem filter_idempotent_witness :
    RelationTagFilter.Filter relIdemWF
        (RelationTagFilter.Filter relIdemWF [("type", "boundary"), ("foo", "bar")]).1
      = RelationTagFilter.Filter relIdemWF [("type", "boundary"), ("foo", "bar")] :=
  filter_idempotent.2.1 relIdemWF [("type", "boundary"), ("foo", "bar")] (by decide)

end Mapping

namespace Parser

/-- One XML attribute as delivered by Go's `encoding/xml` (local name + value). -/
structure Attr where
  name : String
  value : String
deriving DecidableEq, Repr

/-- Accumulate decimal digits; `none` as soon as a non-digit appears. -/
def decDigits : Nat → List Char → Option Nat
  | acc, [] => some acc
  | acc, c :: cs => if c.isDigit then decDigits (10 * acc + (c.toNat - 48)) cs else none

/-- Model of Go `strconv.ParseInt(s, 10, 64)` restricted to its base-10 syntax: an
optional sign followed by a nonempty run of decimal digits; `none` models a parse
error, in which case the Go callers in parser.go keep the zero value. The 64-bit
range clamp of the Go function is not modelled (no claim involves values near
2^63), and the value is an unbounded integer. -/
def parseInt64 (s : String) : Option Int :=
  match s.toList with
  | [] => none
  | '+' :: c :: cs => (decDigits 0 (c :: cs)).map (fun n => (n : Int))
  | '-' :: c :: cs => (decDigits 0 (c :: cs)).map (fun n => -(n : Int))
  | cs => (decDigits 0 cs).map (fun n => (n : Int))

/-- Longest prefix of decimal digits, with the rest of the input. -/
def takeDigits : List Char → List Char × List Char
  | [] => ([], [])
  | c :: cs =>
    if c.isDigit then
      let r := takeDigits cs
      (c :: r.1, r.2)
    else ([], c :: cs)

/-- Value of a digit run, most significant first. -/
def digitsVal (ds : List Char) : Nat :=
  ds.foldl (fun acc c => 10 * acc + (c.toNat - 48)) 0

/-- Decimal exponent part after `e`/`E`: optional sign, nonempty digit run. -/
def parseExp : List Char → Option Int
  | [] => none
  | '+' :: c :: cs => (decDigits 0 (c :: cs)).map (fun n => (n : Int))
  | '-' :: c :: cs => (decDigits 0 (c :: cs)).map (fun n => -(n : Int))
  | cs => (decDigits 0 cs).map (fun n => (n : Int))

def applyExp (q : Rat) (e : Int) : Rat :=
  if 0 ≤ e then q * (10 : Rat) ^ e.toNat else q / (10 : Rat) ^ (-e).toNat

/-- Model of Go `strconv.ParseFloat(s, 64)` on decimal notation, with the value
kept as an exact rational: optional sign, digits with an optional fractional part
(at least one digit overall), optional `e`/`E` exponent. `none` models a parse
error (callers keep the zero value). Inf/NaN/hex forms and rounding to binary64
are not modelled; every claim involves only decimally-exact values. -/
def parseFloat64 (s : String) : Option Rat :=
  let cs := s.toList
  let sgn : Rat × List Char :=
    match cs with
    | '+' :: r => (1, r)
    | '-' :: r => (-1, r)
    | r => (1, r)
  let ipr := takeDigits sgn.2
  let fpr : List Char × List Char :=
    match ipr.2 with
    | '.' :: r => takeDigits r
    | _ => ([], ipr.2)
  let rest : List Char :=
    match ipr.2 with
    | '.' :: _ => fpr.2
    | _ => ipr.2
  if ipr.1.isEmpty ∧ fpr.1.isEmpty then none
  else
    let mant : Rat := sgn.1 * (digitsVal (ipr.1 ++ fpr.1) : Rat) / (10 : Rat) ^ fpr.1.length
    match rest with
    | [] => some mant
    | 'e' :: r => (parseExp r).map (applyExp mant)
    | 'E' :: r => (parseExp r).map (applyExp mant)
    | _ => none

/-- Calendar-field model of Go's `time.Time`. -/
structure GoTime where
  year : Nat
  month : Nat
  day : Nat
  hour : Nat
  minute : Nat
  second : Nat
  nanos : Nat
  offsetMinutes : Int
deriving DecidableEq, Repr

/-- Go's zero `time.Time` (January 1, year 1, 00:00:00 UTC), the value a failed
`time.Parse` leaves behind. -/
def zeroTime : GoTime := ⟨1, 1, 1, 0, 0, 0, 0, 0⟩

/-- Read exactly `n` decimal digits, returning their value and the rest. -/
def readDigitsN : Nat → Nat → List Char → Option (Nat × List Char)
  | 0, acc, cs => some (acc, cs)
  | n + 1, acc, c :: cs =>
    if c.isDigit then readDigitsN n (10 * acc + (c.toNat - 48)) cs else none
  | _ + 1, _, [] => none

def expectChar (c : Char) : List Char → Option (List Char)
  | d :: cs => if d = c then some cs else none
  | [] => none

def daysInMonth (y m : Nat) : Nat :=
  if m = 2 then
    if y % 4 = 0 ∧ (y % 100 ≠ 0 ∨ y % 400 = 0) then 29 else 28
  else if m = 4 ∨ m = 6 ∨ m = 9 ∨ m = 11 then 30 else 31

/-- Optional fractional seconds after the seconds field, as nanoseconds (digits
beyond the ninth are truncated, as in Go). -/
def parseFracOpt : List Char → Option (Nat × List Char)
  | '.' :: cs =>
    let r := takeDigits cs
    if r.1.isEmpty then none
    else some (digitsVal (r.1.take 9) * 10 ^ (9 - min r.1.length 9), r.2)
  | cs => some (0, cs)

def parseHHMM (cs : List Char) : Option (Nat × List Char) :=
  (readDigitsN 2 0 cs).bind fun h =>
    (expectChar ':' h.2).bind fun cs2 =>
      (readDigitsN 2 0 cs2).map fun m => (h.1 * 60 + m.1, m.2)

/-- Numeric UTC offset or `Z`. -/
def parseOffset : List Char → Option (Int × List Char)
  | 'Z' :: cs => some (0, cs)
  | '+' :: cs => (parseHHMM cs).map (fun p => ((p.1 : Int), p.2))
  | '-' :: cs => (parseHHMM cs).map (fun p => (-(p.1 : Int), p.2))
  | _ => none

/-- Modelled from the spec: "provenance timestamp attribute is parsed using the
standard internet date-time textual format" (§6) — RFC 3339, standing in for Go's
`time.Parse(time.RFC3339, s)` (the `time` package is outside the excerpted core):
`YYYY-MM-DDTHH:MM:SS[.fff](Z|±HH:MM)` with calendar range checks; `none` models a
parse error, in which case the caller keeps the zero time. -/
def parseRFC3339 (s : String) : Option GoTime :=
  (readDigitsN 4 0 s.toList).bind fun y =>
    (expectChar '-' y.2).bind fun c1 =>
      (readDigitsN 2 0 c1).bind fun mo =>
        (expectChar '-' mo.2).bind fun c2 =>
          (readDigitsN 2 0 c2).bind fun d =>
            (expectChar 'T' d.2).bind fun c3 =>
              (readDigitsN 2 0 c3).bind fun h =>
                (expectChar ':' h.2).bind fun c4 =>
                  (readDigitsN 2 0 c4).bind fun mi =>
                    (expectChar ':' mi.2).bind fun c5 =>
                      (readDigitsN 2 0 c5).bind fun se =>
                        (parseFracOpt se.2).bind fun ns =>
                          (parseOffset ns.2).bind fun off =>
                            if off.2 = [] ∧ 1 ≤ mo.1 ∧ mo.1 ≤ 12 ∧ 1 ≤ d.1 ∧
                                d.1 ≤ daysInMonth y.1 mo.1 ∧ h.1 ≤ 23 ∧
                                mi.1 ≤ 59 ∧ se.1 ≤ 59 then
                              some ⟨y.1, mo.1, d.1, h.1, mi.1, se.1, ns.1, off.1⟩
                            else none

/-- Modelled from the spec: provenance metadata of the Attribute Record (§3); the
`element` package is outside the excerpted core. Go `int` fields are modelled as
unbounded integers. -/
structure Metadata where
  version : Int
  userId : Int
  userName : String
  changeset : Int
  timestamp : GoTime
deriving DecidableEq, Repr

/-- The zero `element.Metadata{}` allocated by `setElemMetadata`. -/
def Metadata.empty : Metadata := ⟨0, 0, "", 0, zeroTime⟩

/-- Modelled from the spec: the shared Feature Record shape (§3) — identity, tag
set, optional provenance. -/
structure OSMElem where
  id : Int
  tags : List (String × String)
  metadata : Option Metadata
deriving DecidableEq, Repr

def OSMElem.empty : OSMElem := ⟨0, [], none⟩

/-- Modelled from the spec: a point feature carries a latitude/longitude pair (§3);
coordinates are modelled as exact rationals. -/
structure Node where
  elem : OSMElem
  lat : Rat
  long : Rat
deriving DecidableEq, Repr

def Node.empty : Node := ⟨OSMElem.empty, 0, 0⟩

/-- Modelled from the spec: a way feature carries an ordered sequence of referenced
point identifiers (§3). -/
structure Way where
  elem : OSMElem
  refs : List Int
deriving DecidableEq, Repr

def Way.empty : Way := ⟨OSMElem.empty, []⟩

/-- Modelled from the spec: the fixed small enumeration of member kinds (§6). -/
inductive MemberType where
  | node
  | way
  | relation
deriving DecidableEq, Repr

/-- Modelled from the spec: a relation member triple (member-kind, member-id,
role-string) (§3). The zero member kind is modelled as the first enumerant. -/
structure Member where
  id : Int
  type : MemberType
  role : String
deriving DecidableEq, Repr

def Member.empty : Member := ⟨0, .node, ""⟩

/-- Modelled from the spec: `element.MemberTypeValues`, the recognized member-kind
names (§6: node/way/relation); lookup fails on any other string. -/
def MemberTypeValues (s : String) : Option MemberType :=
  if s = "node" then some .node
  else if s = "way" then some .way
  else if s = "relation" then some .relation
  else none

/-- Modelled from the spec: a relation feature carries an ordered sequence of
member triples (§3). -/
structure Relation where
  elem : OSMElem
  members : List Member
deriving DecidableEq, Repr

def Relation.empty : Relation := ⟨OSMElem.empty, []⟩

/-- `DiffElem` (parser.go:16-23). -/
structure DiffElem where
  add : Bool
  mod : Bool
  del : Bool
  node : Option Node
  way : Option Way
  rel : Option Relation
deriving DecidableEq, Repr

/-- XML tokens as delivered by `xml.Decoder.Token`; kinds other than start/end
elements (character data, comments, …) fall through the parser's type switch with
no effect and are collapsed into `other`. -/
inductive Token where
  | startEl (name : String) (attrs : List Attr)
  | endEl (name : String)
  | other
deriving DecidableEq, Repr

/-- `setElemMetadata` (parser.go:210-229): fold the attribute loop over a fresh
`element.Metadata{}`; each `_ =` error discard becomes `getD` of the zero value. -/
def setMetaAttr (md : Metadata) (a : Attr) : Metadata :=
  if a.name = "version" then { md with version := (parseInt64 a.value).getD 0 }
  else if a.name = "uid" then { md with userId := (parseInt64 a.value).getD 0 }
  else if a.name = "user" then { md with userName := a.value }
  else if a.name = "changeset" then { md with changeset := (parseInt64 a.value).getD 0 }
  else if a.name = "timestamp" then
    { md with timestamp := (parseRFC3339 a.value).getD zeroTime }
  else md

def setElemMetadata (attrs : List Attr) (elem : OSMElem) : OSMElem :=
  { elem with metadata := some (attrs.foldl setMetaAttr Metadata.empty) }

/-- Attribute loop of the `case "node"` branch (parser.go:92-101). -/
def setNodeAttr (n : Node) (a : Attr) : Node :=
  if a.name = "id" then { n with elem := { n.elem with id := (parseInt64 a.value).getD 0 } }
  else if a.name = "lat" then { n with lat := (parseFloat64 a.value).getD 0 }
  else if a.name = "lon" then { n with long := (parseFloat64 a.value).getD 0 }
  else n

/-- Attribute loop of the `case "way"` branch (parser.go:106-110). -/
def setWayAttr (w : Way) (a : Attr) : Way :=
  if a.name = "id" then { w with elem := { w.elem with id := (parseInt64 a.value).getD 0 } }
  else w

/-- Attribute loop of the `case "relation"` branch (parser.go:115-119). -/
def setRelAttr (r : Relation) (a : Attr) : Relation :=
  if a.name = "id" then { r with elem := { r.elem with id := (parseInt64 a.value).getD 0 } }
  else r

/-- Attribute loop of the `case "nd"` branch (parser.go:124-129): every `ref`
attribute appends a parsed reference (zero on parse failure). -/
def addNdRefs (w : Way) (attrs : List Attr) : Way :=
  attrs.foldl
    (fun w a =>
      if a.name = "ref" then { w with refs := w.refs ++ [(parseInt64 a.value).getD 0] }
      else w)
    w

/-- Attribute loop of the `case "member"` branch (parser.go:131-151): `none` models
`continue NextToken` — an unknown member type or an unparsable ref drops the whole
member. -/
def buildMember : Member → List Attr → Option Member
  | m, [] => some m
  | m, a :: as =>
    if a.name = "type" then
      match MemberTypeValues a.value with
      | some t => buildMember { m with type := t } as
      | none => none
    else if a.name = "role" then buildMember { m with role := a.value } as
    else if a.name = "ref" then
      match parseInt64 a.value with
      | some i => buildMember { m with id := i } as
      | none => none
    else buildMember m as

/-- Attribute loop of the `case "tag"` branch (parser.go:153-161). -/
def tagKV (attrs : List Attr) : String × String :=
  attrs.foldl
    (fun kv a =>
      if a.name = "k" then (a.value, kv.2)
      else if a.name = "v" then (kv.1, a.value)
      else kv)
    ("", "")

/-- The decoder-local mutable state of `parse` (parser.go:58-66). -/
structure ParseState where
  add : Bool
  mod : Bool
  del : Bool
  tags : List (String × String)
  node : Node
  way : Way
  rel : Relation
deriving DecidableEq, Repr

def initState : ParseState :=
  ⟨false, false, false, [], Node.empty, Way.empty, Relation.empty⟩

/-- `case "create"` (parser.go:79-82). -/
def startCreate (st : ParseState) : ParseState :=
  { st with add := true, mod := false, del := false }

/-- `case "modify"` (parser.go:83-86). -/
def startModify (st : ParseState) : ParseState :=
  { st with add := false, mod := true, del := false }

/-- `case "delete"` (parser.go:87-90). -/
def startDelete (st : ParseState) : ParseState :=
  { st with add := false, mod := false, del := true }

/-- `case "node"` (parser.go:91-104). -/
def startNodeEl (metadata : Bool) (st : ParseState) (attrs : List Attr) : ParseState :=
  let n := attrs.foldl setNodeAttr st.node
  { st with node := if metadata then { n with elem := setElemMetadata attrs n.elem } else n }

/-- `case "way"` (parser.go:105-113). -/
def startWayEl (metadata : Bool) (st : ParseState) (attrs : List Attr) : ParseState :=
  let w := attrs.foldl setWayAttr st.way
  { st with way := if metadata then { w with elem := setElemMetadata attrs w.elem } else w }

/-- `case "relation"` (parser.go:114-122). -/
def startRelationEl (metadata : Bool) (st : ParseState) (attrs : List Attr) : ParseState :=
  let r := attrs.foldl setRelAttr st.rel
  { st with rel := if metadata then { r with elem := setElemMetadata attrs r.elem } else r }

/-- `case "nd"` (parser.go:123-129). -/
def startNdEl (st : ParseState) (attrs : List Attr) : ParseState :=
  { st with way := addNdRefs st.way attrs }

/-- `case "member"` (parser.go:130-152): a dropped member leaves the state
unchanged. -/
def startMemberEl (st : ParseState) (attrs : List Attr) : ParseState :=
  match buildMember Member.empty attrs with
  | some m => { st with rel := { st.rel with members := st.rel.members ++ [m] } }
  | none => st

/-- `case "tag"` (parser.go:153-162). -/
def startTagEl (st : ParseState) (attrs : List Attr) : ParseState :=
  let kv := tagKV attrs
  { st with tags := mapSet st.tags kv.1 kv.2 }

/-- `case xml.StartElement` (parser.go:77-167), dispatched on the local name.
`osmChange` ("pass") and unknown names (which are only logged) leave the state
unchanged. -/
def processStart (metadata : Bool) (st : ParseState) (attrs : List Attr) :
    String → ParseState
  | "create" => startCreate st
  | "modify" => startModify st
  | "delete" => startDelete st
  | "node" => startNodeEl metadata st attrs
  | "way" => startWayEl metadata st attrs
  | "relation" => startRelationEl metadata st attrs
  | "nd" => startNdEl st attrs
  | "member" => startMemberEl st attrs
  | "tag" => startTagEl st attrs
  | _ => st

/-- Result of one token step: continue with an updated state (having emitted at
most one event), or terminate the loop (`case "osmChange": return`). -/
inductive StepOut where
  | cont (st : ParseState) (ev : Option DiffElem)
  | stop
deriving DecidableEq, Repr

/-- `case "node"` end (parser.go:171-177 and 196-205): attach the pending tag set
when nonempty, emit one event carrying the current operation flags, reset the node
slot and the tag set. -/
def endNodeEl (st : ParseState) : StepOut :=
  let n := if st.tags.isEmpty then st.node
    else { st.node with elem := { st.node.elem with tags := st.tags } }
  .cont { st with node := Node.empty, tags := [] }
    (some { add := st.add, mod := st.mod, del := st.del,
            node := some n, way := none, rel := none })

/-- `case "way"` end (parser.go:178-184 and 196-205). -/
def endWayEl (st : ParseState) : StepOut :=
  let w := if st.tags.isEmpty then st.way
    else { st.way with elem := { st.way.elem with tags := st.tags } }
  .cont { st with way := Way.empty, tags := [] }
    (some { add := st.add, mod := st.mod, del := st.del,
            node := none, way := some w, rel := none })

/-- `case "relation"` end (parser.go:185-191 and 196-205). -/
def endRelationEl (st : ParseState) : StepOut :=
  let r := if st.tags.isEmpty then st.rel
    else { st.rel with elem := { st.rel.elem with tags := st.tags } }
  .cont { st with rel := Relation.empty, tags := [] }
    (some { add := st.add, mod := st.mod, del := st.del,
            node := none, way := none, rel := some r })

/-- `case xml.EndElement` (parser.go:168-205): closing a feature element emits one
event; closing `osmChange` terminates the loop; any other end element does
nothing. -/
def processEnd (st : ParseState) : String → StepOut
  | "node" => endNodeEl st
  | "way" => endWayEl st
  | "relation" => endRelationEl st
  | "osmChange" => .stop
  | _ => .cont st none

def processToken (metadata : Bool) (st : ParseState) : Token → StepOut
  | .startEl name attrs => .cont (processStart metadata st attrs name) none
  | .endEl name => processEnd st name
  | .other => .cont st none

/-- The error `xml.Decoder.Token` returns at end of input. -/
def ioEOF : String := "EOF"

/-- The token loop of `parse` (parser.go:68-207). The two channels are modelled by
the returned (event list, optional terminal error): an error from the tokenizer is
sent once and ends both sequences at once; reading past the end of the token list
models the decoder reporting io.EOF. -/
def parseLoop (metadata : Bool) (st : ParseState) :
    List (Except String Token) → List DiffElem × Option String
  | [] => ([], some ioEOF)
  | .error e :: _ => ([], some e)
  | .ok tok :: rest =>
    match processToken metadata st tok with
    | .stop => ([], none)
    | .cont st2 none => parseLoop metadata st2 rest
    | .cont st2 (some ev) =>
      let r := parseLoop metadata st2 rest
      (ev :: r.1, r.2)

/-- The observable outcomes of the three acquisition stages of `parse`
(parser.go:43-56): `os.Open` may fail, `gzip.NewReader` may fail, otherwise the
decompressed stream tokenizes to a sequence of token-or-error results. -/
inductive DiffFile where
  | openErr (e : String)
  | gzipErr (e : String)
  | tokens (ts : List (Except String Token))

/-- `parse` (parser.go:39-208). -/
def parse (metadata : Bool) : DiffFile → List DiffElem × Option String
  | .openErr e => ([], some e)
  | .gzipErr e => ([], some e)
  | .tokens ts => parseLoop metadata initState ts

/-- `Parse` (parser.go:25-30): metadata capture disabled. -/
def Parse (f : DiffFile) : List DiffElem × Option String := parse false f

/-- `ParseFull` (parser.go:32-37): metadata capture enabled. -/
def ParseFull (f : DiffFile) : List DiffElem × Option String := parse true f

/-- The three section markers of the §6 schema. -/
inductive Op where
  | create
  | modify
  | delete
deriving DecidableEq, Repr

def Op.label : Op → String
  | .create => "create"
  | .modify => "modify"
  | .delete => "delete"

/-- The (add, mod, del) flag triple the decoder holds inside a section. -/
def Op.flags : Op → Bool × Bool × Bool
  | .create => (true, false, false)
  | .modify => (false, true, false)
  | .delete => (false, false, true)

/-- Children a §6-valid way element may have. -/
inductive WayChild where
  | nd (attrs : List Attr)
  | tag (attrs : List Attr)
deriving DecidableEq

/-- Children a §6-valid relation element may have. -/
inductive RelChild where
  | member (attrs : List Attr)
  | tag (attrs : List Attr)
deriving DecidableEq

/-- A §6-valid top-level feature element (a node's children are its tag elements). -/
inductive FeatureElem where
  | node (attrs : List Attr) (children : List (List Attr))
  | way (attrs : List Attr) (children : List WayChild)
  | relation (attrs : List Attr) (children : List RelChild)
deriving DecidableEq

inductive FeatureKind where
  | node
  | way
  | relation
deriving DecidableEq, Repr

def FeatureElem.kind : FeatureElem → FeatureKind
  | .node _ _ => .node
  | .way _ _ => .way
  | .relation _ _ => .relation

/-- A (self-closing) child element yields a start token and an end token. -/
def tagTokens (a : List Attr) : List Token := [.startEl "tag" a, .endEl "tag"]

def WayChild.toTokens : WayChild → List Token
  | .nd a => [.startEl "nd" a, .endEl "nd"]
  | .tag a => tagTokens a

def RelChild.toTokens : RelChild → List Token
  | .member a => [.startEl "member" a, .endEl "member"]
  | .tag a => tagTokens a

def FeatureElem.toTokens : FeatureElem → List Token
  | .node attrs cs => .startEl "node" attrs :: (cs.map tagTokens).flatten ++ [.endEl "node"]
  | .way attrs cs =>
    .startEl "way" attrs :: (cs.map WayChild.toTokens).flatten ++ [.endEl "way"]
  | .relation attrs cs =>
    .startEl "relation" attrs :: (cs.map RelChild.toTokens).flatten ++ [.endEl "relation"]

/-- A §6 create/modify/delete section. -/
structure OscSection where
  op : Op
  elems : List FeatureElem

def OscSection.toTokens (s : OscSection) : List Token :=
  .startEl s.op.label [] :: (s.elems.map FeatureElem.toTokens).flatten ++ [.endEl s.op.label]

/-- A §6-valid input document: an `osmChange` root holding sections. -/
structure OscDoc where
  sections : List OscSection

def OscDoc.toTokens (d : OscDoc) : List Token :=
  .startEl "osmChange" [] :: (d.sections.map OscSection.toTokens).flatten
    ++ [.endEl "osmChange"]

def DiffElem.opFlags (e : DiffElem) : Bool × Bool × Bool := (e.add, e.mod, e.del)

/-- The payload kind of an event, defined only when exactly one payload is set. -/
def DiffElem.payloadKind : DiffElem → Option FeatureKind
  | ⟨_, _, _, some _, none, none⟩ => some .node
  | ⟨_, _, _, none, some _, none⟩ => some .way
  | ⟨_, _, _, none, none, some _⟩ => some .relation
  | _ => none

def DiffElem.flagCount (e : DiffElem) : Nat :=
  (if e.add then 1 else 0) + (if e.mod then 1 else 0) + (if e.del then 1 else 0)

def DiffElem.payloadCount (e : DiffElem) : Nat :=
  (if e.node.isSome then 1 else 0) + (if e.way.isSome then 1 else 0)
    + (if e.rel.isSome then 1 else 0)

/-- Expected (operation flags, payload kind) summary of each event of a valid
document, one entry per feature element in document order. -/
def OscDoc.expected (d : OscDoc) : List ((Bool × Bool × Bool) × Option FeatureKind) :=
  (d.sections.map (fun s => s.elems.map (fun fe => (s.op.flags, some fe.kind)))).flatten

/-- Pure run of the token loop over successfully decoded tokens: final state,
emitted events, and whether the loop returned (`</osmChange>`). -/
def processList (metadata : Bool) (st : ParseState) :
    List Token → ParseState × List DiffElem × Bool
  | [] => (st, [], false)
  | t :: ts =>
    match processToken metadata st t with
    | .stop => (st, [], true)
    | .cont st2 none => processList metadata st2 ts
    | .cont st2 (some ev) =>
      let r := processList metadata st2 ts
      (r.1, ev :: r.2.1, r.2.2)

theorem processToken_startEl (m : Bool) (st : ParseState) (name : String)
    (attrs : List Attr) :
    processToken m st (.startEl name attrs) = .cont (processStart m st attrs name) none :=
  rfl

theorem processToken_endEl (m : Bool) (st : ParseState) (name : String) :
    processToken m st (.endEl name) = processEnd st name :=
  rfl

theorem processStart_create (m : Bool) (st : ParseState) (attrs : List Attr) :
    processStart m st attrs "create" = startCreate st := rfl

theorem processStart_modify (m : Bool) (st : ParseState) (attrs : List Attr) :
    processStart m st attrs "modify" = startModify st := rfl

theorem processStart_delete (m : Bool) (st : ParseState) (attrs : List Attr) :
    processStart m st attrs "delete" = startDelete st := rfl

theorem processStart_node (m : Bool) (st : ParseState) (attrs : List Attr) :
    processStart m st attrs "node" = startNodeEl m st attrs := rfl

theorem processStart_way (m : Bool) (st : ParseState) (attrs : List Attr) :
    processStart m st attrs "way" = startWayEl m st attrs := rfl

theorem processStart_relation (m : Bool) (st : ParseState) (attrs : List Attr) :
    processStart m st attrs "relation" = startRelationEl m st attrs := rfl

theorem processStart_nd (m : Bool) (st : ParseState) (attrs : List Attr) :
    processStart m st attrs "nd" = startNdEl st attrs := rfl

theorem processStart_member (m : Bool) (st : ParseState) (attrs : List Attr) :
    processStart m st attrs "member" = startMemberEl st attrs := rfl

theorem processStart_tag (m : Bool) (st : ParseState) (attrs : List Attr) :
    processStart m st attrs "tag" = startTagEl st attrs := rfl

theorem processStart_osmChange (m : Bool) (st : ParseState) (attrs : List Attr) :
    processStart m st attrs "osmChange" = st := rfl

theorem processEnd_node (st : ParseState) : processEnd st "node" = endNodeEl st := rfl

theorem processEnd_way (st : ParseState) : processEnd st "way" = endWayEl st := rfl

theorem processEnd_relation (st : ParseState) :
    processEnd st "relation" = endRelationEl st := rfl

theorem processEnd_osmChange (st : ParseState) : processEnd st "osmChange" = .stop := rfl

theorem processEnd_tag (st : ParseState) : processEnd st "tag" = .cont st none := rfl

theorem processEnd_nd (st : ParseState) : processEnd st "nd" = .cont st none := rfl

theorem processEnd_member (st : ParseState) : processEnd st "member" = .cont st none := rfl

theorem processEnd_create (st : ParseState) : processEnd st "create" = .cont st none := rfl

theorem processEnd_modify (st : ParseState) : processEnd st "modify" = .cont st none := rfl

theorem processEnd_delete (st : ParseState) : processEnd st "delete" = .cont st none := rfl

theorem processList_append (m : Bool) (ts1 ts2 : List Token) (st st1 : ParseState)
    (evs : List DiffElem) (h : processList m st ts1 = (st1, evs, false)) :
    processList m st (ts1 ++ ts2)
      = ((processList m st1 ts2).1,
         evs ++ (processList m st1 ts2).2.1, (processList m st1 ts2).2.2) := by
  induction ts1 generalizing st evs with
  | nil =>
    rw [processList] at h
    obtain ⟨rfl, rfl, -⟩ : st = st1 ∧ [] = evs ∧ False = false := by
      simpa [Prod.ext_iff] using h
    simp
  | cons t ts ih =>
    rw [List.cons_append]
    cases hp : processToken m st t with
    | stop =>
      rw [processList, hp] at h
      simp [Prod.ext_iff] at h
    | cont st2 ev? =>
      cases ev? with
      | none =>
        simp only [processList, hp] at h ⊢
        exact ih st2 evs h
      | some ev =>
        simp only [processList, hp] at h ⊢
        rcases hq : processList m st2 ts with ⟨st3, evs3, stopped3⟩
        rw [hq] at h
        obtain ⟨rfl, rfl, h3⟩ : st3 = st1 ∧ ev :: evs3 = evs ∧ stopped3 = false := by
          simpa [Prod.ext_iff] using h
        subst h3
        rw [ih st2 evs3 hq]
        simp

theorem parseLoop_append (m : Bool) (ts : List Token)
    (rest : List (Except String Token)) (st st1 : ParseState) (evs : List DiffElem)
    (h : processList m st ts = (st1, evs, false)) :
    parseLoop m st (ts.map Except.ok ++ rest)
      = (evs ++ (parseLoop m st1 rest).1, (parseLoop m st1 rest).2) := by
  induction ts generalizing st evs with
  | nil =>
    rw [processList] at h
    obtain ⟨rfl, rfl, -⟩ : st = st1 ∧ [] = evs ∧ False = false := by
      simpa [Prod.ext_iff] using h
    simp
  | cons t ts ih =>
    rw [List.map_cons, List.cons_append]
    cases hp : processToken m st t with
    | stop =>
      rw [processList, hp] at h
      simp [Prod.ext_iff] at h
    | cont st2 ev? =>
      cases ev? with
      | none =>
        simp only [processList, hp] at h
        simp only [parseLoop, hp]
        exact ih st2 evs h
      | some ev =>
        simp only [processList, hp] at h
        simp only [parseLoop, hp]
        rcases hq : processList m st2 ts with ⟨st3, evs3, stopped3⟩
        rw [hq] at h
        obtain ⟨rfl, rfl, h3⟩ : st3 = st1 ∧ ev :: evs3 = evs ∧ stopped3 = false := by
          simpa [Prod.ext_iff] using h
        subst h3
        rw [ih st2 evs3 hq]
        simp

theorem startMemberEl_shape (st : ParseState) (attrs : List Attr) :
    ∃ rel2, startMemberEl st attrs = { st with rel := rel2 } := by
  rw [startMemberEl]
  cases buildMember Member.empty attrs with
  | some mem => exact ⟨_, rfl⟩
  | none => exact ⟨st.rel, rfl⟩

theorem processList_tagChildren (m : Bool) (st : ParseState) (cs : List (List Attr)) :
    ∃ tags2, processList m st ((cs.map tagTokens).flatten)
      = ({ st with tags := tags2 }, [], false) := by
  induction cs generalizing st with
  | nil => exact ⟨st.tags, rfl⟩
  | cons a cs ih =>
    obtain ⟨tags2, h⟩ := ih (startTagEl st a)
    refine ⟨tags2, ?_⟩
    rw [List.map_cons, List.flatten_cons]
    simp only [tagTokens, List.cons_append, List.nil_append]
    simp only [processList, processToken_startEl, processStart_tag,
      processToken_endEl, processEnd_tag]
    rw [h]
    rfl

theorem processList_wayChildren (m : Bool) (st : ParseState) (cs : List WayChild) :
    ∃ tags2 way2, processList m st ((cs.map WayChild.toTokens).flatten)
      = ({ st with tags := tags2, way := way2 }, [], false) := by
  induction cs generalizing st with
  | nil => exact ⟨st.tags, st.way, rfl⟩
  | cons c cs ih =>
    cases c with
    | nd a =>
      obtain ⟨tags2, way2, h⟩ := ih (startNdEl st a)
      refine ⟨tags2, way2, ?_⟩
      rw [List.map_cons, List.flatten_cons]
      simp only [WayChild.toTokens, List.cons_append, List.nil_append]
      simp only [processList, processToken_startEl, processStart_nd,
        processToken_endEl, processEnd_nd]
      rw [h]
      rfl
    | tag a =>
      obtain ⟨tags2, way2, h⟩ := ih (startTagEl st a)
      refine ⟨tags2, way2, ?_⟩
      rw [List.map_cons, List.flatten_cons]
      simp only [WayChild.toTokens, tagTokens, List.cons_append, List.nil_append]
      simp only [processList, processToken_startEl, processStart_tag,
        processToken_endEl, processEnd_tag]
      rw [h]
      rfl

theorem processList_relChildren (m : Bool) (st : ParseState) (cs : List RelChild) :
    ∃ tags2 rel2, processList m st ((cs.map RelChild.toTokens).flatten)
      = ({ st with tags := tags2, rel := rel2 }, [], false) := by
  induction cs generalizing st with
  | nil => exact ⟨st.tags, st.rel, rfl⟩
  | cons c cs ih =>
    cases c with
    | member a =>
      obtain ⟨rel0, hsh⟩ := startMemberEl_shape st a
      obtain ⟨tags2, rel2, h⟩ := ih { st with rel := rel0 }
      refine ⟨tags2, rel2, ?_⟩
      rw [List.map_cons, List.flatten_cons]
      simp only [RelChild.toTokens, List.cons_append, List.nil_append]
      simp only [processList, processToken_startEl, processStart_member,
        processToken_endEl, processEnd_member, hsh]
      rw [h]
    | tag a =>
      obtain ⟨tags2, rel2, h⟩ := ih (startTagEl st a)
      refine ⟨tags2, rel2, ?_⟩
      rw [List.map_cons, List.flatten_cons]
      simp only [RelChild.toTokens, tagTokens, List.cons_append, List.nil_append]
      simp only [processList, processToken_startEl, processStart_tag,
        processToken_endEl, processEnd_tag]
      rw [h]
      rfl

theorem processList_featureElem (m : Bool) (st : ParseState) (fe : FeatureElem) :
    ∃ st2 ev, processList m st fe.toTokens = (st2, [ev], false)
      ∧ st2.add = st.add ∧ st2.mod = st.mod ∧ st2.del = st.del
      ∧ ev.add = st.add ∧ ev.mod = st.mod ∧ ev.del = st.del
      ∧ ev.payloadKind = some fe.kind := by
  cases fe with
  | node attrs cs =>
    obtain ⟨tags2, h⟩ := processList_tagChildren m (startNodeEl m st attrs) cs
    have h2 := processList_append m _ [Token.endEl "node"] _ _ _ h
    refine ⟨{ st with tags := [], node := Node.empty },
      { add := st.add, mod := st.mod, del := st.del,
        node := some (if tags2.isEmpty then (startNodeEl m st attrs).node
          else { (startNodeEl m st attrs).node with
                 elem := { (startNodeEl m st attrs).node.elem with tags := tags2 } }),
        way := none, rel := none },
      ?_, rfl, rfl, rfl, rfl, rfl, rfl, rfl⟩
    simp only [FeatureElem.toTokens]
    simp only [processList, processToken_startEl, processStart_node]
    simp only [List.append_eq]
    rw [h2]
    simp only [processList, processToken_endEl, processEnd_node, endNodeEl,
      List.nil_append]
    rfl
  | way attrs cs =>
    obtain ⟨tags2, way2, h⟩ := processList_wayChildren m (startWayEl m st attrs) cs
    have h2 := processList_append m _ [Token.endEl "way"] _ _ _ h
    refine ⟨{ st with tags := [], way := Way.empty },
      { add := st.add, mod := st.mod, del := st.del,
        node := none,
        way := some (if tags2.isEmpty then way2
          else { way2 with elem := { way2.elem with tags := tags2 } }),
        rel := none },
      ?_, rfl, rfl, rfl, rfl, rfl, rfl, rfl⟩
    simp only [FeatureElem.toTokens]
    simp only [processList, processToken_startEl, processStart_way]
    simp only [List.append_eq]
    rw [h2]
    simp only [processList, processToken_endEl, processEnd_way, endWayEl,
      List.nil_append]
    rfl
  | relation attrs cs =>
    obtain ⟨tags2, rel2, h⟩ := processList_relChildren m (startRelationEl m st attrs) cs
    have h2 := processList_append m _ [Token.endEl "relation"] _ _ _ h
    refine ⟨{ st with tags := [], rel := Relation.empty },
      { add := st.add, mod := st.mod, del := st.del,
        node := none, way := none,
        rel := some (if tags2.isEmpty then rel2
          else { rel2 with elem := { rel2.elem with tags := tags2 } }) },
      ?_, rfl, rfl, rfl, rfl, rfl, rfl, rfl⟩
    simp only [FeatureElem.toTokens]
    simp only [processList, processToken_startEl, processStart_relation]
    simp only [List.append_eq]
    rw [h2]
    simp only [processList, processToken_endEl, processEnd_relation, endRelationEl,
      List.nil_append]
    rfl

theorem processList_elems (m : Bool) (st : ParseState) (fes : List FeatureElem) :
    ∃ st2 evs, processList m st ((fes.map FeatureElem.toTokens).flatten)
        = (st2, evs, false)
      ∧ st2.add = st.add ∧ st2.mod = st.mod ∧ st2.del = st.del
      ∧ evs.map (fun e => (e.opFlags, e.payloadKind))
          = fes.map (fun fe => ((st.add, st.mod, st.del), some fe.kind)) := by
  induction fes generalizing st with
  | nil => exact ⟨st, [], rfl, rfl, rfl, rfl, rfl⟩
  | cons fe fes ih =>
    obtain ⟨st1, ev, h1, ha1, hm1, hd1, hea, hem, hed, hk⟩ :=
      processList_featureElem m st fe
    obtain ⟨st2, evs, h2, ha2, hm2, hd2, hsum⟩ := ih st1
    rw [ha1] at ha2
    rw [hm1] at hm2
    rw [hd1] at hd2
    refine ⟨st2, ev :: evs, ?_, ha2, hm2, hd2, ?_⟩
    · rw [List.map_cons, List.flatten_cons]
      rw [processList_append m _ _ _ _ _ h1, h2]
      simp
    · rw [ha1, hm1, hd1] at hsum
      rw [List.map_cons, List.map_cons, hsum]
      simp [DiffElem.opFlags, hea, hem, hed, hk]

theorem processList_section (m : Bool) (st : ParseState) (s : OscSection) :
    ∃ st2 evs, processList m st s.toTokens = (st2, evs, false)
      ∧ evs.map (fun e => (e.opFlags, e.payloadKind))
          = s.elems.map (fun fe => (s.op.flags, some fe.kind)) := by
  obtain ⟨op, elems⟩ := s
  cases op with
  | create =>
    obtain ⟨st2, evs, h, -, -, -, hsum⟩ := processList_elems m (startCreate st) elems
    refine ⟨st2, evs, ?_, ?_⟩
    · simp only [OscSection.toTokens, Op.label]
      simp only [processList, processToken_startEl, processStart_create]
      simp only [List.append_eq]
      rw [processList_append m _ _ _ _ _ h]
      simp only [processList, processToken_endEl, processEnd_create]
      simp
    · rw [hsum]
      simp [Op.flags, startCreate]
  | modify =>
    obtain ⟨st2, evs, h, -, -, -, hsum⟩ := processList_elems m (startModify st) elems
    refine ⟨st2, evs, ?_, ?_⟩
    · simp only [OscSection.toTokens, Op.label]
      simp only [processList, processToken_startEl, processStart_modify]
      simp only [List.append_eq]
      rw [processList_append m _ _ _ _ _ h]
      simp only [processList, processToken_endEl, processEnd_modify]
      simp
    · rw [hsum]
      simp [Op.flags, startModify]
  | delete =>
    obtain ⟨st2, evs, h, -, -, -, hsum⟩ := processList_elems m (startDelete st) elems
    refine ⟨st2, evs, ?_, ?_⟩
    · simp only [OscSection.toTokens, Op.label]
      simp only [processList, processToken_startEl, processStart_delete]
      simp only [List.append_eq]
      rw [processList_append m _ _ _ _ _ h]
      simp only [processList, processToken_endEl, processEnd_delete]
      simp
    · rw [hsum]
      simp [Op.flags, startDelete]

theorem processList_sections (m : Bool) (st : ParseState) (ss : List OscSection) :
    ∃ st2 evs, processList m st ((ss.map OscSection.toTokens).flatten)
        = (st2, evs, false)
      ∧ evs.map (fun e => (e.opFlags, e.payloadKind))
          = (ss.map (fun s => s.elems.map (fun fe => (s.op.flags, some fe.kind)))).flatten := by
  induction ss generalizing st with
  | nil => exact ⟨st, [], rfl, rfl⟩
  | cons s ss ih =>
    obtain ⟨st1, evs1, h1, hsum1⟩ := processList_section m st s
    obtain ⟨st2, evs2, h2, hsum2⟩ := ih st1
    refine ⟨st2, evs1 ++ evs2, ?_, ?_⟩
    · rw [List.map_cons, List.flatten_cons, processList_append m _ _ _ _ _ h1, h2]
    · rw [List.map_cons, List.flatten_cons, List.map_append, hsum1, hsum2]

theorem flagCount_of_opFlags (e : DiffElem) (o : Op) (h : e.opFlags = o.flags) :
    e.flagCount = 1 := by
  cases o with
  | create =>
    obtain ⟨h1, h2, h3⟩ : e.add = true ∧ e.mod = false ∧ e.del = false := by
      simpa [DiffElem.opFlags, Op.flags, Prod.ext_iff] using h
    simp [DiffElem.flagCount, h1, h2, h3]
  | modify =>
    obtain ⟨h1, h2, h3⟩ : e.add = false ∧ e.mod = true ∧ e.del = false := by
      simpa [DiffElem.opFlags, Op.flags, Prod.ext_iff] using h
    simp [DiffElem.flagCount, h1, h2, h3]
  | delete =>
    obtain ⟨h1, h2, h3⟩ : e.add = false ∧ e.mod = false ∧ e.del = true := by
      simpa [DiffElem.opFlags, Op.flags, Prod.ext_iff] using h
    simp [DiffElem.flagCount, h1, h2, h3]

theorem payloadCount_of_payloadKind (e : DiffElem) (k : FeatureKind)
    (h : e.payloadKind = some k) : e.payloadCount = 1 := by
  obtain ⟨a, m2, d, n, w, r⟩ := e
  cases n <;> cases w <;> cases r <;>
    simp_all [DiffElem.payloadKind, DiffElem.payloadCount]

/-- C3: for every §6-valid input document, the decoder reaches clean closure with
no error, emits exactly one event per top-level feature element in the order those
elements close (each carrying the enclosing section's operation flags and its
element's payload kind), and every emitted event has exactly one operation flag
set and exactly one non-nil payload. -/
theorem parse_valid_doc (d : OscDoc) (metadata : Bool) :
    (parse metadata (.tokens (d.toTokens.map Except.ok))).2 = none
    ∧ ((parse metadata (.tokens (d.toTokens.map Except.ok))).1).map
        (fun e => (e.opFlags, e.payloadKind)) = d.expected
    ∧ ((parse metadata (.tokens (d.toTokens.map Except.ok))).1).all
        (fun e => decide (e.flagCount = 1) && decide (e.payloadCount = 1)) = true := by
  obtain ⟨ss⟩ := d
  obtain ⟨st2, evs, h, hsum⟩ := processList_sections metadata initState ss
  have hdoc : parse metadata (.tokens ((OscDoc.toTokens ⟨ss⟩).map Except.ok))
      = (evs, none) := by
    simp only [parse, OscDoc.toTokens, List.map_cons, List.map_append]
    simp only [parseLoop, processToken_startEl, processStart_osmChange]
    simp only [List.append_eq, List.map_nil]
    rw [parseLoop_append metadata _ _ _ _ _ h]
    simp only [parseLoop, processToken_endEl, processEnd_osmChange]
    simp
  refine ⟨by rw [hdoc], by rw [hdoc]; exact hsum, ?_⟩
  rw [hdoc]
  rw [List.all_eq_true]
  intro e he
  have hmem : (e.opFlags, e.payloadKind) ∈
      evs.map (fun e => (e.opFlags, e.payloadKind)) :=
    List.mem_map_of_mem _ he
  rw [hsum] at hmem
  obtain ⟨l, hl, hentry⟩ := List.mem_flatten.mp hmem
  obtain ⟨s, -, rfl⟩ := List.mem_map.mp hl
  obtain ⟨fe, -, heq⟩ := List.mem_map.mp hentry
  obtain ⟨hof, hpk⟩ : s.op.flags = e.opFlags ∧ some fe.kind = e.payloadKind := by
    simpa [Prod.ext_iff] using heq
  rw [flagCount_of_opFlags e s.op hof.symm,
    payloadCount_of_payloadKind e fe.kind hpk.symm]
  simp

/-- Number of operation flags currently set in the decoder state. -/
def ParseState.opCount (st : ParseState) : Nat :=
  (if st.add then 1 else 0) + (if st.mod then 1 else 0) + (if st.del then 1 else 0)

theorem processStart_opCount (m : Bool) (st : ParseState) (attrs : List Attr)
    (name : String) :
    (processStart m st attrs name).opCount = st.opCount
      ∨ (processStart m st attrs name).opCount = 1 := by
  unfold processStart
  split
  · exact Or.inr rfl
  · exact Or.inr rfl
  · exact Or.inr rfl
  · exact Or.inl rfl
  · exact Or.inl rfl
  · exact Or.inl rfl
  · exact Or.inl rfl
  · obtain ⟨rel2, hsh⟩ := startMemberEl_shape st attrs
    rw [hsh]
    exact Or.inl rfl
  · exact Or.inl rfl
  · exact Or.inl rfl

theorem processEnd_cont_none (st : ParseState) (name : String) (st2 : ParseState)
    (h : processEnd st name = .cont st2 none) : st2 = st := by
  unfold processEnd at h
  split at h
  · rw [endNodeEl] at h
    injection h with h1 h2
    exact Option.noConfusion h2
  · rw [endWayEl] at h
    injection h with h1 h2
    exact Option.noConfusion h2
  · rw [endRelationEl] at h
    injection h with h1 h2
    exact Option.noConfusion h2
  · exact StepOut.noConfusion h
  · injection h with h1 h2
    exact h1.symm

theorem processEnd_event_flags (st : ParseState) (name : String) (st2 : ParseState)
    (ev : DiffElem) (h : processEnd st name = .cont st2 (some ev)) :
    ev.add = st.add ∧ ev.mod = st.mod ∧ ev.del = st.del
      ∧ st2.opCount = st.opCount := by
  unfold processEnd at h
  split at h
  · rw [endNodeEl] at h
    injection h with h1 h2
    injection h2 with h2
    subst h1
    subst h2
    exact ⟨rfl, rfl, rfl, rfl⟩
  · rw [endWayEl] at h
    injection h with h1 h2
    injection h2 with h2
    subst h1
    subst h2
    exact ⟨rfl, rfl, rfl, rfl⟩
  · rw [endRelationEl] at h
    injection h with h1 h2
    injection h2 with h2
    subst h1
    subst h2
    exact ⟨rfl, rfl, rfl, rfl⟩
  · exact StepOut.noConfusion h
  · injection h with h1 h2
    exact Option.noConfusion h2

theorem parseLoop_flagCount (m : Bool) (ts : List (Except String Token))
    (st : ParseState) (hst : st.opCount ≤ 1) :
    ((parseLoop m st ts).1).all (fun e => decide (e.flagCount ≤ 1)) = true := by
  induction ts generalizing st with
  | nil => rfl
  | cons t ts ih =>
    cases t with
    | error e => rfl
    | ok tok =>
      cases tok with
      | other =>
        simp only [parseLoop, processToken]
        exact ih st hst
      | startEl name attrs =>
        simp only [parseLoop, processToken_startEl]
        refine ih _ ?_
        rcases processStart_opCount m st attrs name with h | h
        · rw [h]; exact hst
        · rw [h]
      | endEl name =>
        simp only [parseLoop, processToken_endEl]
        cases hp : processEnd st name with
        | stop => rfl
        | cont st2 ev? =>
          cases ev? with
          | none =>
            have hst2 : st2 = st := processEnd_cont_none st name st2 hp
            rw [hst2]
            exact ih st hst
          | some ev =>
            obtain ⟨h1, h2, h3, h4⟩ := processEnd_event_flags st name st2 ev hp
            have hev : ev.flagCount = st.opCount := by
              simp [DiffElem.flagCount, ParseState.opCount, h1, h2, h3]
            have hrest := ih st2 (by rw [h4]; exact hst)
            simp only [List.all_cons, hrest, Bool.and_true, decide_eq_true_eq]
            rw [hev]
            exact hst

def c9Tokens : List (Except String Token) :=
  [.ok (.startEl "osmChange" []), .ok (.startEl "node" [⟨"id", "3"⟩]),
   .ok (.endEl "node"), .ok (.endEl "osmChange")]

def c9Event : DiffElem :=
  { add := false, mod := false, del := false,
    node := some { elem := { id := 3, tags := [], metadata := none },
                   lat := 0, long := 0 },
    way := none, rel := none }

/-- C9: every event the decoder emits carries at most one operation flag; a
top-level element that closes before any create/modify/delete marker is still
emitted, with all three flags false. -/
theorem events_at_most_one_flag :
    (∀ (metadata : Bool) (ts : List (Except String Token)),
        ((parse metadata (.tokens ts)).1).all (fun e => decide (e.flagCount ≤ 1)) = true)
    ∧ parse false (.tokens c9Tokens) = ([c9Event], none)
    ∧ c9Event.flagCount = 0 :=
  ⟨fun metadata ts => parseLoop_flagCount metadata ts initState (by decide),
   by with_unfolding_all decide, by decide⟩

/-- C4: each of the three fatal failure kinds — file open, decompression-stream
initialization, tokenization — yields exactly one terminal error and ends both
output sequences at once, with no event for the element in progress; a prefix of
events completed before a tokenizer error is delivered unchanged, followed by that
single error. -/
theorem parse_fatal_errors :
    (∀ (metadata : Bool) (e : String), parse metadata (.openErr e) = ([], some e))
    ∧ (∀ (metadata : Bool) (e : String), parse metadata (.gzipErr e) = ([], some e))
    ∧ (∀ (metadata : Bool) (st : ParseState) (e : String)
        (rest : List (Except String Token)),
        parseLoop metadata st (.error e :: rest) = ([], some e))
    ∧ (∀ (metadata : Bool) (ts : List Token) (st1 : ParseState) (evs : List DiffElem)
        (e : String) (rest : List (Except String Token)),
        processList metadata initState ts = (st1, evs, false) →
        parse metadata (.tokens (ts.map Except.ok ++ Except.error e :: rest))
          = (evs, some e)) := by
  refine ⟨fun _ _ => rfl, fun _ _ => rfl, fun _ _ _ _ => rfl, ?_⟩
  intro metadata ts st1 evs e rest h
  show parseLoop metadata initState (ts.map Except.ok ++ Except.error e :: rest) = _
  rw [parseLoop_append metadata _ _ _ _ _ h]
  simp [parseLoop]

/-- Witness for C4: a tokenizer error with a node element in progress yields the
empty event prefix and the single terminal error. -/
theorem parse_fatal_errors_witness :
    parse false (.tokens ([Token.startEl "osmChange" [],
        Token.startEl "node" [⟨"id", "7"⟩]].map Except.ok
      ++ Except.error "tok" :: []))
      = ([], some "tok") :=
  parse_fatal_errors.2.2.2 false
    [Token.startEl "osmChange" [], Token.startEl "node" [⟨"id", "7"⟩]]
    ((processList false initState
      [Token.startEl "osmChange" [], Token.startEl "node" [⟨"id", "7"⟩]]).1)
    [] "tok" [] (by with_unfolding_all decide)

theorem buildMember_none (attrs : List Attr) (m0 : Member)
    (h : (∃ a ∈ attrs, a.name = "type" ∧ MemberTypeValues a.value = none)
        ∨ ∃ a ∈ attrs, a.name = "ref" ∧ parseInt64 a.value = none) :
    buildMember m0 attrs = none := by
  induction attrs generalizing m0 with
  | nil =>
    rcases h with ⟨a, ha, -, -⟩ | ⟨a, ha, -, -⟩ <;> simp at ha
  | cons a as ih =>
    by_cases hty : a.name = "type"
    · rw [buildMember, if_pos hty]
      cases hmv : MemberTypeValues a.value with
      | none => rfl
      | some t =>
        apply ih
        rcases h with ⟨b, hb, hbn, hbv⟩ | ⟨b, hb, hbn, hbv⟩
        · rcases List.mem_cons.mp hb with rfl | hb2
          · rw [hmv] at hbv
            exact absurd hbv (by simp)
          · exact Or.inl ⟨b, hb2, hbn, hbv⟩
        · rcases List.mem_cons.mp hb with rfl | hb2
          · rw [hty] at hbn
            exact absurd hbn (by decide)
          · exact Or.inr ⟨b, hb2, hbn, hbv⟩
    · by_cases hro : a.name = "role"
      · rw [buildMember, if_neg hty, if_pos hro]
        apply ih
        rcases h with ⟨b, hb, hbn, hbv⟩ | ⟨b, hb, hbn, hbv⟩
        · rcases List.mem_cons.mp hb with rfl | hb2
          · exact absurd hbn hty
          · exact Or.inl ⟨b, hb2, hbn, hbv⟩
        · rcases List.mem_cons.mp hb with rfl | hb2
          · rw [hro] at hbn
            exact absurd hbn (by decide)
          · exact Or.inr ⟨b, hb2, hbn, hbv⟩
      · by_cases hrf : a.name = "ref"
        · rw [buildMember, if_neg hty, if_neg hro, if_pos hrf]
          cases hpi : parseInt64 a.value with
          | none => rfl
          | some i =>
            apply ih
            rcases h with ⟨b, hb, hbn, hbv⟩ | ⟨b, hb, hbn, hbv⟩
            · rcases List.mem_cons.mp hb with rfl | hb2
              · exact absurd hbn hty
              · exact Or.inl ⟨b, hb2, hbn, hbv⟩
            · rcases List.mem_cons.mp hb with rfl | hb2
              · rw [hpi] at hbv
                exact absurd hbv (by simp)
              · exact Or.inr ⟨b, hb2, hbn, hbv⟩
        · rw [buildMember, if_neg hty, if_neg hro, if_neg hrf]
          apply ih
          rcases h with ⟨b, hb, hbn, hbv⟩ | ⟨b, hb, hbn, hbv⟩
          · rcases List.mem_cons.mp hb with rfl | hb2
            · exact absurd hbn hty
            · exact Or.inl ⟨b, hb2, hbn, hbv⟩
          · rcases List.mem_cons.mp hb with rfl | hb2
            · exact absurd hbn hrf
            · exact Or.inr ⟨b, hb2, hbn, hbv⟩

def c5Tokens : List (Except String Token) :=
  [.ok (.startEl "osmChange" []), .ok (.startEl "create" []),
   .ok (.startEl "relation" [⟨"id", "7"⟩]),
   .ok (.startEl "member" [⟨"type", "node"⟩, ⟨"ref", "1"⟩, ⟨"role", "outer"⟩]),
   .ok (.endEl "member"),
   .ok (.startEl "member" [⟨"type", "bogus"⟩, ⟨"ref", "5"⟩]),
   .ok (.endEl "member"),
   .ok (.startEl "member" [⟨"type", "way"⟩, ⟨"ref", "2"⟩]),
   .ok (.endEl "member"),
   .ok (.endEl "relation"), .ok (.endEl "create"), .ok (.endEl "osmChange")]

def c5Event : DiffElem :=
  { add := true, mod := false, del := false, node := none, way := none,
    rel := some { elem := { id := 7, tags := [], metadata := none },
                  members := [⟨1, .node, "outer"⟩, ⟨2, .way, ""⟩] } }

/-- C5: a member element with an unrecognized type value or an unparsable ref is
dropped by itself — the state is completely unchanged and parsing continues — and
the enclosing relation is still emitted with its other valid members intact
(scenario B). -/
theorem member_invalid_skipped :
    (∀ (metadata : Bool) (st : ParseState) (attrs : List Attr),
        ((∃ a ∈ attrs, a.name = "type" ∧ MemberTypeValues a.value = none)
          ∨ ∃ a ∈ attrs, a.name = "ref" ∧ parseInt64 a.value = none) →
        processToken metadata st (.startEl "member" attrs) = .cont st none)
    ∧ parse false (.tokens c5Tokens) = ([c5Event], none) := by
  constructor
  · intro metadata st attrs h
    rw [processToken_startEl, processStart_member, startMemberEl,
      buildMember_none attrs Member.empty h]
  · with_unfolding_all decide

/-- Witness for C5 at a concrete bogus member. -/
theorem member_invalid_skipped_witness :
    processToken false initState
        (.startEl "member" [⟨"type", "bogus"⟩, ⟨"ref", "5"⟩])
      = .cont initState none :=
  member_invalid_skipped.1 false initState [⟨"type", "bogus"⟩, ⟨"ref", "5"⟩]
    (Or.inl ⟨⟨"type", "bogus"⟩, by decide, rfl, by decide⟩)

theorem buildMember_no_type (attrs : List Attr) (m0 : Member)
    (hnt : ∀ a ∈ attrs, a.name ≠ "type")
    (href : ∀ a ∈ attrs, a.name = "ref" → (parseInt64 a.value).isSome = true) :
    ∃ mem, buildMember m0 attrs = some mem ∧ mem.type = m0.type := by
  induction attrs generalizing m0 with
  | nil => exact ⟨m0, rfl, rfl⟩
  | cons a as ih =>
    have hty : ¬(a.name = "type") := hnt a (List.mem_cons_self a as)
    rw [buildMember, if_neg hty]
    by_cases hro : a.name = "role"
    · rw [if_pos hro]
      exact ih { m0 with role := a.value }
        (fun b hb => hnt b (List.mem_cons_of_mem a hb))
        (fun b hb => href b (List.mem_cons_of_mem a hb))
    · rw [if_neg hro]
      by_cases hrf : a.name = "ref"
      · rw [if_pos hrf]
        have hv := href a (List.mem_cons_self a as) hrf
        cases hpi : parseInt64 a.value with
        | none =>
          rw [hpi] at hv
          simp at hv
        | some i =>
          exact ih { m0 with id := i }
            (fun b hb => hnt b (List.mem_cons_of_mem a hb))
            (fun b hb => href b (List.mem_cons_of_mem a hb))
      · rw [if_neg hrf]
        exact ih m0
          (fun b hb => hnt b (List.mem_cons_of_mem a hb))
          (fun b hb => href b (List.mem_cons_of_mem a hb))

/-- C10: a member element with no type attribute at all (and whatever role and
parsable refs it carries) is not dropped: it is appended with the zero member
kind. -/
theorem member_no_type_default_kind :
    ∀ (metadata : Bool) (st : ParseState) (attrs : List Attr),
      (∀ a ∈ attrs, a.name ≠ "type") →
      (∀ a ∈ attrs, a.name = "ref" → (parseInt64 a.value).isSome = true) →
      ∃ mem, buildMember Member.empty attrs = some mem ∧ mem.type = MemberType.node
        ∧ processToken metadata st (.startEl "member" attrs)
            = .cont { st with rel := { st.rel with
                members := st.rel.members ++ [mem] } } none := by
  intro metadata st attrs hnt href
  obtain ⟨mem, hbm, hty⟩ := buildMember_no_type attrs Member.empty hnt href
  refine ⟨mem, hbm, hty, ?_⟩
  rw [processToken_startEl, processStart_member, startMemberEl, hbm]

/-- Witness for C10 at a concrete member with ref and role but no type. -/
theorem member_no_type_default_kind_witness :
    ∃ mem, buildMember Member.empty [⟨"ref", "5"⟩, ⟨"role", "inner"⟩] = some mem
      ∧ mem.type = MemberType.node
      ∧ processToken false initState
          (.startEl "member" [⟨"ref", "5"⟩, ⟨"role", "inner"⟩])
        = .cont { initState with rel := { initState.rel with
            members := initState.rel.members ++ [mem] } } none :=
  member_no_type_default_kind false initState [⟨"ref", "5"⟩, ⟨"role", "inner"⟩]
    (by decide) (by decide)

def c6Tokens : List (Except String Token) :=
  [.ok (.startEl "osmChange" []), .ok (.startEl "modify" []),
   .ok (.startEl "node" [⟨"id", "x"⟩, ⟨"lat", "foo"⟩, ⟨"lon", ""⟩, ⟨"version", "v1"⟩,
      ⟨"uid", ""⟩, ⟨"user", "bob"⟩, ⟨"changeset", "?"⟩, ⟨"timestamp", "yesterday"⟩]),
   .ok (.endEl "node"), .ok (.endEl "modify"), .ok (.endEl "osmChange")]

def c6Meta : Metadata :=
  { version := 0, userId := 0, userName := "bob", changeset := 0,
    timestamp := zeroTime }

def c6Event : DiffElem :=
  { add := false, mod := true, del := false,
    node := some { elem := { id := 0, tags := [], metadata := some c6Meta },
                   lat := 0, long := 0 },
    way := none, rel := none }

/-- C6: an id/lat/lon/nd-ref/version/uid/changeset attribute that fails to parse
as a number, and a timestamp attribute that fails to parse as RFC 3339, set the
affected field to its zero value; no error is raised and the enclosing element is
still emitted as a normal change event. -/
theorem lenient_numeric_defaults :
    (∀ (n : Node) (v : String), parseInt64 v = none →
        setNodeAttr n ⟨"id", v⟩ = { n with elem := { n.elem with id := 0 } })
    ∧ (∀ (n : Node) (v : String), parseFloat64 v = none →
        setNodeAttr n ⟨"lat", v⟩ = { n with lat := 0 })
    ∧ (∀ (n : Node) (v : String), parseFloat64 v = none →
        setNodeAttr n ⟨"lon", v⟩ = { n with long := 0 })
    ∧ (∀ (w : Way) (v : String), parseInt64 v = none →
        addNdRefs w [⟨"ref", v⟩] = { w with refs := w.refs ++ [0] })
    ∧ (∀ (md : Metadata) (v : String), parseInt64 v = none →
        setMetaAttr md ⟨"version", v⟩ = { md with version := 0 })
    ∧ (∀ (md : Metadata) (v : String), parseInt64 v = none →
        setMetaAttr md ⟨"uid", v⟩ = { md with userId := 0 })
    ∧ (∀ (md : Metadata) (v : String), parseInt64 v = none →
        setMetaAttr md ⟨"changeset", v⟩ = { md with changeset := 0 })
    ∧ (∀ (md : Metadata) (v : String), parseRFC3339 v = none →
        setMetaAttr md ⟨"timestamp", v⟩ = { md with timestamp := zeroTime })
    ∧ ParseFull (.tokens c6Tokens) = ([c6Event], none) := by
  refine ⟨?_, ?_, ?_, ?_, ?_, ?_, ?_, ?_, ?_⟩
  · intro n v h
    simp [setNodeAttr, h]
  · intro n v h
    simp [setNodeAttr, h]
  · intro n v h
    simp [setNodeAttr, h]
  · intro w v h
    simp [addNdRefs, h]
  · intro md v h
    simp [setMetaAttr, h]
  · intro md v h
    simp [setMetaAttr, h]
  · intro md v h
    simp [setMetaAttr, h]
  · intro md v h
    simp [setMetaAttr, h]
  · with_unfolding_all decide

/-- Witness for C6 at concrete unparsable attribute values. -/
theorem lenient_numeric_defaults_witness :
    setNodeAttr Node.empty ⟨"id", "x"⟩
        = { Node.empty with elem := { Node.empty.elem with id := 0 } }
    ∧ setMetaAttr Metadata.empty ⟨"timestamp", "yesterday"⟩
        = { Metadata.empty with timestamp := zeroTime } :=
  ⟨lenient_numeric_defaults.1 Node.empty "x" (by with_unfolding_all decide),
   lenient_numeric_defaults.2.2.2.2.2.2.2.1 Metadata.empty "yesterday"
     (by with_unfolding_all decide)⟩

def c8Tokens : List (Except String Token) :=
  [.ok (.startEl "osmChange" []), .ok (.startEl "modify" []),
   .ok (.startEl "node" [⟨"id", "1"⟩, ⟨"lat", "1.0"⟩, ⟨"lon", "2.0"⟩]),
   .ok (.startEl "tag" [⟨"k", "amenity"⟩, ⟨"v", "restaurant"⟩]), .ok (.endEl "tag"),
   .ok (.endEl "node"), .ok (.endEl "modify"), .ok (.endEl "osmChange")]

/-- C8: scenario A — the single-node modify document yields exactly one event,
with only the Mod flag set, carrying point feature id 1, latitude 1, longitude 2
and tag set {amenity: restaurant}, and the sequence closes normally. -/
theorem parse_scenario_a :
    Parse (.tokens c8Tokens)
      = ([{ add := false, mod := true, del := false,
            node := some { elem := { id := 1, tags := [("amenity", "restaurant")],
                                     metadata := none },
                           lat := 1, long := 2 },
            way := none, rel := none }], none) := by
  with_unfolding_all decide

end Parser

end Imposm
